import Mathlib

/-
  Shallow embedding of the AsyncIterator library (src/asynciterator.ts).

  Each definition below is translated from the corresponding TypeScript
  function; the doc comment of every definition names the source symbol.
  Sources of items are modelled as the list of their remaining items:
  `read()` on a non-empty list returns its head and removes it, and on an
  empty list returns `null` (modelled as `none`), the source then counting
  as ended.  All JavaScript microtask-deferred effects are made explicit in
  return values (emitted events, scheduled tasks).
-/

namespace AIter

/-! ### State constants (src/asynciterator.ts lines 15-54) -/

/-- ID of the INIT state (`1 << 0`). -/
def INIT : Nat := 1

/-- ID of the OPEN state (`1 << 1`). -/
def OPEN : Nat := 2

/-- ID of the CLOSING state (`1 << 2`). -/
def CLOSING : Nat := 4

/-- ID of the CLOSED state (`1 << 3`). -/
def CLOSED : Nat := 8

/-- ID of the ENDED state (`1 << 4`). -/
def ENDED : Nat := 16

/-- ID of the DESTROYED state (`1 << 5`). -/
def DESTROYED : Nat := 32

/-! ### The state machine (`AsyncIterator._changeState`) -/

/-- Translation of `AsyncIterator._changeState` (asynciterator.ts:84-98),
restricted to its state effect.  Returns the state after the call and
whether the change was valid (the returned boolean of the source).  The
source computes `valid = newState > this._state && this._state < ENDED`
and updates `this._state` only when valid. -/
def changeState (s newState : Nat) : Nat × Bool :=
  if newState > s ∧ s < ENDED then (newState, true) else (s, false)

/-- The sequence of states an iterator passes through when `_changeState`
is called with each request in `reqs` in order, starting from state `s`.
Only successful transitions contribute a state. -/
def stateTrace (s : Nat) : List Nat → List Nat
  | [] => []
  | n :: rest =>
    let r := changeState s n
    if r.2 then r.1 :: stateTrace r.1 rest else stateTrace r.1 rest

/-- Runs a sequence of `_changeState` requests, counting `end` emissions.
`_changeState` emits the `end` event exactly when the change is valid and
`newState === ENDED` (asynciterator.ts:90-95).  Returns the final state
and the number of `end` emissions. -/
def runStates (s : Nat) : List Nat → Nat × Nat
  | [] => (s, 0)
  | n :: rest =>
    let r := changeState s n
    let e := if r.2 = true ∧ n = ENDED then 1 else 0
    let t := runStates r.1 rest
    (t.1, e + t.2)

/-! ### Base-iterator lifecycle: `_end`, `destroy`, `EmptyIterator` -/

/-- Observable per-iterator state of the base `AsyncIterator`: the state
machine value, the readable flag, and the number of attached listeners
for the `readable`, `data` and `end` events. -/
structure IterState where
  state : Nat
  readable : Bool
  readableListeners : Nat
  dataListeners : Nat
  endListeners : Nat
deriving DecidableEq, Repr

/-- Translation of `AsyncIterator._end` (asynciterator.ts:224-231).
Calls `_changeState(destroy ? DESTROYED : ENDED)`; when that succeeds it
clears the readable flag and removes all listeners for `readable`, `data`
and `end`.  Returns the new state and whether the `end` event was emitted
(which `_changeState` does exactly when entering ENDED). -/
def endIter (s : IterState) (dest : Bool) : IterState × Bool :=
  let target := if dest then DESTROYED else ENDED
  let r := changeState s.state target
  if r.2 then
    (⟨r.1, false, 0, 0, 0⟩, target = ENDED)
  else
    ({ s with state := r.1 }, false)

/-- Translation of `AsyncIterator.destroy` (asynciterator.ts:194-203).
`cause` is the optional argument of `destroy`; `cbErr` is the optional
error the subclass `_destroy` implementation passes to its callback.
Returns the final iterator state, the list of `error` event payloads
emitted (in order), and whether an `end` event was emitted.  The callback
body computes `cause = cause || error`, emits `error(cause)` when
present, then calls `_end(true)`. -/
def destroy {E : Type} (s : IterState) (cause cbErr : Option E) :
    IterState × List E × Bool :=
  if ENDED ≤ s.state then (s, [], false)
  else
    let cause2 := match cause with
      | some c => some c
      | none => cbErr
    let errs := match cause2 with
      | some c => [c]
      | none => []
    let r := endIter s true
    (r.1, errs, r.2)

/-- Translation of the `EmptyIterator` constructor (asynciterator.ts:552-558):
a fresh base iterator (state OPEN, no `readable`/`data`/`end` listeners,
per the `AsyncIterator` constructor) on which `_changeState(ENDED, true)`
is called directly. -/
def emptyIteratorNew : IterState :=
  let s0 : IterState := ⟨OPEN, false, 0, 0, 0⟩
  { s0 with state := (changeState s0.state ENDED).1 }

/-! ### Property store (`getProperty` / `setProperty`) -/

/-- Association-list `get`: the value stored under a name, if any.
Models JavaScript object property lookup. -/
def assocGet {N V : Type} [DecidableEq N] : List (N × V) → N → Option V
  | [], _ => none
  | (k, v) :: rest, n => if k = n then some v else assocGet rest n

/-- Association-list `set`: stores a value under a name, overwriting any
previous binding.  Models JavaScript object property assignment. -/
def assocSet {N V : Type} [DecidableEq N] : List (N × V) → N → V → List (N × V)
  | [], n, v => [(n, v)]
  | (k, w) :: rest, n, v =>
    if k = n then (n, v) :: rest else (k, w) :: assocSet rest n v

/-- Association-list `delete`: removes the binding for a name.
Models the JavaScript `delete` operator. -/
def assocRemove {N V : Type} [DecidableEq N] : List (N × V) → N → List (N × V)
  | [], _ => []
  | (k, w) :: rest, n =>
    if k = n then assocRemove rest n else (k, w) :: assocRemove rest n

/-- The property store of an iterator: `_properties` maps names to values,
`_propertyCallbacks` maps names to the pending one-shot callbacks
registered by `getProperty` (in registration order).  `N` is the type of
property names, `V` of values, `C` of callback identities. -/
structure PropState (N V C : Type) where
  props : List (N × V)
  cbs : List (N × List C)
deriving DecidableEq, Repr

/-- Translation of `AsyncIterator.getProperty` when a callback is passed
(asynciterator.ts:329-349).  If the property is set, a deferred task
delivering the value to the callback is scheduled (returned as
`some (value, cb)`).  Otherwise the callback is pushed onto
`_propertyCallbacks[name]`. -/
def getPropertyCb {N V C : Type} [DecidableEq N]
    (s : PropState N V C) (name : N) (cb : C) :
    PropState N V C × Option (V × C) :=
  match assocGet s.props name with
  | some v => (s, some (v, cb))
  | none =>
    let cbs2 := match assocGet s.cbs name with
      | some l => assocSet s.cbs name (l ++ [cb])
      | none => assocSet s.cbs name [cb]
    ({ s with cbs := cbs2 }, none)

/-- Translation of `AsyncIterator.setProperty` (asynciterator.ts:356-373).
Stores the value; if pending callbacks exist for the name, they are
detached from `_propertyCallbacks` and a single deferred task firing all
of them (in list order, each with the new value) is scheduled, returned
as `some (callbacks, value)`. -/
def setProperty {N V C : Type} [DecidableEq N]
    (s : PropState N V C) (name : N) (v : V) :
    PropState N V C × Option (List C × V) :=
  let props2 := assocSet s.props name v
  match assocGet s.cbs name with
  | some callbacks =>
    (⟨props2, assocRemove s.cbs name⟩, some (callbacks, v))
  | none => ({ s with props := props2 }, none)

/-- The individual callback invocations performed by the deferred task
returned by `setProperty`: each callback in order, paired with the value
it receives.  Models the `queueMicrotask` body at asynciterator.ts:364-367. -/
def taskFirings {V C : Type} : Option (List C × V) → List (C × V)
  | none => []
  | some (l, v) => l.map fun cb => (cb, v)

/-! ### JavaScript numbers (for `maxBufferSize` coercion) -/

/-- A JavaScript number as relevant to `maxBufferSize`: a finite value
(modelled as a rational), positive or negative infinity, or NaN. -/
inductive JSNum
  | num (q : ℚ)
  | inf
  | negInf
  | nan
deriving DecidableEq, Repr

/-- Whether a JavaScript number is finite (`Number.isFinite`). -/
def JSNum.isFinite : JSNum → Bool
  | .num _ => true
  | _ => false

/-- `Math.trunc` on a finite JavaScript number: rounds toward zero. -/
def jsTrunc (q : ℚ) : ℤ :=
  if q < 0 then ⌈q⌉ else ⌊q⌋

/-- Comparison `n < m` between a natural (a buffer length) and a
JavaScript number (`maxBufferSize`), as JavaScript `<` behaves:
false against NaN, true against Infinity. -/
def jsLtNum (n : Nat) (m : JSNum) : Bool :=
  match m with
  | .num q => decide ((n : ℚ) < q)
  | .inf => true
  | .negInf => false
  | .nan => false

/-! ### BufferedIterator -/

/-- Observable state of a `BufferedIterator` (asynciterator.ts:715-978):
state machine value, internal buffer, `_maxBufferSize`, the `_reading`
lock, `_pushedCount`, and the readable flag. -/
structure BufState (T : Type) where
  state : Nat
  buffer : List T
  maxBufferSize : JSNum
  reading : Bool
  pushedCount : Nat
  readable : Bool
deriving DecidableEq, Repr

/-- The async action `BufferedIterator.read` can schedule on the
microtask queue: nothing, `_fillBufferAsync`, or `_endAsync`. -/
inductive BufSched
  | idle
  | fill
  | endTask
deriving DecidableEq, Repr

/-- Translation of `BufferedIterator._push` (asynciterator.ts:846-852):
when the iterator is not done, increments `_pushedCount`, appends the
item to the buffer, and sets the readable flag (the `readable` setter
coerces to `true && !done = true` here); when done, does nothing. -/
def bufPush {T : Type} (s : BufState T) (item : T) : BufState T :=
  if ENDED ≤ s.state then s
  else { s with
    pushedCount := s.pushedCount + 1,
    buffer := s.buffer ++ [item],
    readable := true }

/-- Translation of `BufferedIterator.read` (asynciterator.ts:801-827).
Returns the read item (`none` models `null`), the new state, and the
async action scheduled.  When done it returns `null` immediately;
otherwise it shifts the buffer (clearing `readable` when empty), and if
not `_reading` and the buffer is below `_maxBufferSize` it schedules
`_fillBufferAsync` (acquiring the reading lock, asynciterator.ts:902-912)
when not closed, or `_endAsync` when closed with an empty buffer. -/
def bufRead {T : Type} (s : BufState T) : Option T × BufState T × BufSched :=
  if ENDED ≤ s.state then (none, s, .idle)
  else
    let (item, s1) :=
      match s.buffer with
      | x :: rest => ((some x : Option T), { s with buffer := rest })
      | [] => (none, { s with readable := false })
    if ¬ s1.reading ∧ jsLtNum s1.buffer.length s1.maxBufferSize = true then
      if ¬ CLOSING ≤ s1.state then
        (item, { s1 with reading := true }, .fill)
      else if s1.buffer.isEmpty then
        (item, s1, .endTask)
      else
        (item, s1, .idle)
    else
      (item, s1, .idle)

/-- The coercion the `maxBufferSize` setter applies to the assigned
value (asynciterator.ts:743-748): `Infinity` passes through; any other
non-finite value becomes `4`; a finite value becomes
`Math.max(Math.trunc(value), 1)`. -/
def coerceMaxBufferSize (v : JSNum) : JSNum :=
  if v = .inf then v
  else match v with
    | .num q => .num ((max (jsTrunc q) 1 : ℤ) : ℚ)
    | _ => .num 4

/-- Translation of the `maxBufferSize` setter (asynciterator.ts:743-756).
Stores the coerced value only when it differs from the current one, and
in that case invokes `_fillBuffer()` synchronously when
`this._state === OPEN`.  Returns the new state and whether `_fillBuffer`
was invoked. -/
def setMaxBufferSize {T : Type} (s : BufState T) (v : JSNum) :
    BufState T × Bool :=
  let v2 := coerceMaxBufferSize v
  if s.maxBufferSize ≠ v2 then
    ({ s with maxBufferSize := v2 }, decide (s.state = OPEN))
  else (s, false)

/-! ### SimpleTransformIterator -/

/-- The loop body of `SimpleTransformIterator._readAndTransformSimple`
(asynciterator.ts:1232-1260), run to exhaustion of the source (the
buffered driver keeps invoking `_read` until the iterator closes or the
source ends, so the emitted sequence is the full loop result).  The
source is the list of its remaining items; `off` is `_offset`; `lim` is
`_limit` with `none` for `Infinity`; `filter`, `map` and `optional` are
the configured `_filter`, `_map` (`none` when absent; a map returning
`none` models a `null` result) and `_optional`.  Per the source: an item
failing the filter, or consumed by a positive offset (which only then
decrements), is skipped; otherwise the item is mapped; a `null` mapping
pushes the original item only when optional; afterwards `--this._limit`
closes the iterator on reaching zero.  The asynchronous `_transform`
branch is not modelled (these claims configure no `transform` option, so
`isFunction(this._transform)` is false). -/
def simpleLoop {T : Type} (filter : T → Bool) (map : Option (T → Option T))
    (optional : Bool) : Nat → Option Nat → List T → List T
  | _, _, [] => []
  | off, lim, item :: rest =>
    if ¬ filter item then simpleLoop filter map optional off lim rest
    else if off ≠ 0 then simpleLoop filter map optional (off - 1) lim rest
    else
      let mapped := match map with
        | none => some item
        | some f => f item
      let pushed : List T := match mapped with
        | none => if optional then [item] else []
        | some m => [m]
      let lim2 : Option Nat := match lim with
        | none => none
        | some k => some (k - 1)
      pushed ++ (if lim2 = some 0 then []
                 else simpleLoop filter map optional 0 lim2 rest)

/-- Translation of `SimpleTransformIterator._readAndTransformSimple`
(asynciterator.ts:1219-1262) as the sequence of items it pushes over a
whole run: the `if (this._limit === 0) this.close()` guard before the
loop, then the loop of `simpleLoop`. -/
def readAndTransformSimple {T : Type} (filter : T → Bool)
    (map : Option (T → Option T)) (optional : Bool)
    (offset : Nat) (limit : Option Nat) (src : List T) : List T :=
  if limit = some 0 then [] else simpleLoop filter map optional offset limit src

/-- Translation of `SimpleTransformIterator._insert`
(asynciterator.ts:1277-1291): the items an inserter (prepender or
appender) contributes — all of its items in order, or none when absent. -/
def insertItems {T : Type} : Option (List T) → List T
  | none => []
  | some l => l

/-- The full emitted sequence of a `SimpleTransformIterator` over a
source, per the `BufferedIterator` protocol: `_begin` drains the
prepender into the buffer first (asynciterator.ts:1265-1268), the main
loop transforms the source, and `_flush` drains the appender on close
(asynciterator.ts:1271-1274); the FIFO buffer preserves this order. -/
def simpleTransformEmit {T : Type} (filter : T → Bool)
    (map : Option (T → Option T)) (optional : Bool)
    (offset : Nat) (limit : Option Nat)
    (prepended appended : Option (List T)) (src : List T) : List T :=
  insertItems prepended
    ++ readAndTransformSimple filter map optional offset limit src
    ++ insertItems appended

/-! ### The `skip` / `take` / `range` operators -/

/-- The constructor coercion `Math.max(Math.trunc(x), 0)` the
`SimpleTransformIterator` constructor applies to a finite integral
`offset` or `limit` (asynciterator.ts:1192-1195). -/
def intCoerceNat (i : ℤ) : Nat := (max i 0).toNat

/-- The limit `AsyncIterator.range(start, end)` passes to `transform`:
`Math.max(end - start + 1, 0)` (asynciterator.ts:508-510). -/
def rangeLimit (start fin : ℤ) : ℤ := max (fin - start + 1) 0

/-- Emitted sequence of `skip(m)` over a source
(asynciterator.ts:487-489): `transform({ offset: m })`, i.e. offset `m`,
no limit, default filter and map. -/
def skipEmit (m : Nat) (xs : List ℤ) : List ℤ :=
  readAndTransformSimple (fun _ => true) none false m none xs

/-- Emitted sequence of `take(n)` over a source
(asynciterator.ts:497-499): `transform({ limit: n })`, i.e. offset 0,
limit `n`, default filter and map. -/
def takeEmit (n : Nat) (xs : List ℤ) : List ℤ :=
  readAndTransformSimple (fun _ => true) none false 0 (some n) xs

/-- Emitted sequence of `range(start, fin)` over a source
(asynciterator.ts:508-510): `transform({ offset: start,
limit: Math.max(fin - start + 1, 0) })`, with the constructor coercions
applied. -/
def rangeEmit (start fin : ℤ) (xs : List ℤ) : List ℤ :=
  readAndTransformSimple (fun _ => true) none false
    (intCoerceNat start) (some (intCoerceNat (rangeLimit start fin))) xs

/-- The emitted sequence of an `IntegerIterator` with the default step 1
(asynciterator.ts:649-700): starting from `next`, `read()` emits the
current value and closes once the next value exceeds `last`; the
constructor closes immediately when `next > last`. -/
def intRangeList (next last : ℤ) : List ℤ :=
  if h : next > last then []
  else next :: intRangeList (next + 1) last
termination_by (last + 1 - next).toNat
decreasing_by
  simp only [not_lt] at h
  omega

/-! ### ClonedIterator and HistoryReader -/

/-- The state of a `HistoryReader` (asynciterator.ts:1509-1581):
the history of every item read from the source so far, and the source,
modelled as its remaining items. -/
structure HistoryReader (T : Type) where
  history : List T
  src : List T
deriving DecidableEq, Repr

/-- JavaScript array element assignment `a[pos] = x` for `pos` at most
the length: in-bounds positions are overwritten, `pos = a.length`
appends.  (`HistoryReader.readAt` only ever assigns at
`pos = history.length`.) -/
def jsArraySet {T : Type} (l : List T) (pos : Nat) (x : T) : List T :=
  if pos < l.length then l.set pos x else l ++ [x]

/-- Translation of `HistoryReader.readAt` (asynciterator.ts:1566-1575):
an item already in history is returned as-is; otherwise, when the source
has not ended and `source.read()` yields an item, it is stored at
`history[pos]` and returned; otherwise `null`. -/
def readAt {T : Type} (hr : HistoryReader T) (pos : Nat) :
    Option T × HistoryReader T :=
  if pos < hr.history.length then (hr.history.get? pos, hr)
  else match hr.src with
    | [] => (none, hr)
    | x :: rest => (some x, ⟨jsArraySet hr.history pos x, rest⟩)

/-- Translation of `HistoryReader.endsAt` (asynciterator.ts:1578-1580):
the source has ended and the history length equals the position. -/
def endsAt {T : Type} (hr : HistoryReader T) (pos : Nat) : Bool :=
  hr.src.isEmpty && hr.history.length == pos

/-- An action on a clone system: a `read()` on the `i`-th registered
clone (`ClonedIterator.read`, asynciterator.ts:1477-1492), or the
registration of a new clone (`clone()` / `HistoryReader.register`,
asynciterator.ts:1554-1557), whose `_readPosition` starts at 0. -/
inductive CloneAction
  | read (i : Nat)
  | register
deriving DecidableEq, Repr

/-- A source shared by clones: the history reader plus, for every
registered clone, its `_readPosition` and the sequence of items it has
observed (its emitted items) so far. -/
structure CloneSys (T : Type) where
  hr : HistoryReader T
  clones : List (Nat × List T)
deriving DecidableEq, Repr

/-- One step of the clone system.  A `read i` performs
`ClonedIterator.read` on clone `i`: it calls `readAt` at the
`_readPosition` of that clone and advances the position exactly when an item was
returned, the item then being observed.  A `register` appends a fresh
clone with `_readPosition = 0` and no observations. -/
def stepSys {T : Type} (s : CloneSys T) : CloneAction → CloneSys T
  | .register => { s with clones := s.clones ++ [(0, [])] }
  | .read i =>
    match s.clones.get? i with
    | none => s
    | some (pos, obs) =>
      let r := readAt s.hr pos
      match r.1 with
      | some x => ⟨r.2, s.clones.set i (pos + 1, obs ++ [x])⟩
      | none => ⟨r.2, s.clones⟩

/-- Runs a schedule of clone actions. -/
def runSys {T : Type} (s : CloneSys T) (acts : List CloneAction) : CloneSys T :=
  acts.foldl stepSys s

/-- The initial clone system over a source with items `xs`: empty
history, no clones registered yet. -/
def initSys {T : Type} (xs : List T) : CloneSys T :=
  ⟨⟨[], xs⟩, []⟩

/-- The invariant tying a clone system to the full item sequence `xs` of
its source: the history is the prefix of `xs` already pulled, and every
observed sequence of every clone is exactly the first `_readPosition` items of
`xs`. -/
def SysInv {T : Type} (xs : List T) (s : CloneSys T) : Prop :=
  s.hr.history ++ s.hr.src = xs ∧
  ∀ c ∈ s.clones, c.1 ≤ s.hr.history.length ∧ c.2 = xs.take c.1

/-! ## Helper lemmas -/

/-- Core facts about `runStates`: from a done state nothing happens, and
from a live state the number of `end` emissions is 1 exactly when the
run finishes in the ENDED state. -/
theorem runStates_core (reqs : List Nat) : ∀ s : Nat,
    (ENDED ≤ s → runStates s reqs = (s, 0)) ∧
    (s < ENDED → (runStates s reqs).2 =
      (if (runStates s reqs).1 = ENDED then 1 else 0)) := by
  induction reqs with
  | nil =>
    intro s
    refine ⟨fun _ => rfl, fun h => ?_⟩
    simp only [runStates]
    have : s ≠ ENDED := by omega
    simp [this]
  | cons n rest ih =>
    intro s
    constructor
    · intro h
      have hcs : changeState s n = (s, false) := by
        have : ¬ (n > s ∧ s < ENDED) := by omega
        simp [changeState, this]
      simp only [runStates, hcs]
      simp [(ih s).1 h]
    · intro h
      by_cases hv : n > s
      · have hcs : changeState s n = (n, true) := by
          simp [changeState, hv, h]
        by_cases hn : n = ENDED
        · subst hn
          have htail := (ih ENDED).1 le_rfl
          simp [runStates, hcs, htail]
        · rcases lt_or_le n ENDED with hlt | hge
          · have htail := (ih n).2 hlt
            simp only [runStates, hcs]
            simpa [hn] using htail
          · have htail := (ih n).1 hge
            simp [runStates, hcs, htail, hn]
      · have hcs : changeState s n = (s, false) := by
          have : ¬ (n > s ∧ s < ENDED) := by omega
          simp [changeState, this]
        have htail := (ih s).2 h
        simp only [runStates, hcs]
        simpa using htail

/-- The visited state sequence is a strictly increasing chain from the
starting state. -/
theorem stateTrace_chain (reqs : List Nat) : ∀ s : Nat,
    List.Chain (· < ·) s (stateTrace s reqs) := by
  induction reqs with
  | nil => intro s; exact List.Chain.nil
  | cons n rest ih =>
    intro s
    by_cases hv : n > s ∧ s < ENDED
    · have hcs : changeState s n = (n, true) := by simp [changeState, hv]
      simp [stateTrace, hcs, List.chain_cons]
      exact ⟨hv.1, ih n⟩
    · have hcs : changeState s n = (s, false) := by simp [changeState, hv]
      simp only [stateTrace, hcs]
      simpa using ih s

/-- Once at or past ENDED, no transition ever happens again. -/
theorem stateTrace_terminal (reqs : List Nat) : ∀ s : Nat,
    ENDED ≤ s → stateTrace s reqs = [] := by
  induction reqs with
  | nil => intro s _; rfl
  | cons n rest ih =>
    intro s h
    have hcs : changeState s n = (s, false) := by
      have : ¬ (n > s ∧ s < ENDED) := by omega
      simp [changeState, this]
    simp only [stateTrace, hcs]
    simpa using ih s h

/-! ## Claim theorems -/

/-- Claim C1: `_changeState(newState)` changes the state and reports
success if and only if `newState` is strictly greater than the current
state and the current state is strictly below ENDED; consequently every
state sequence an iterator exhibits is strictly increasing (hence a
strictly increasing subsequence of INIT &lt; OPEN &lt; CLOSING &lt; CLOSED
&lt; ENDED &lt; DESTROYED), and once at ENDED or DESTROYED no further
transition occurs. -/
theorem changeState_spec :
    (∀ s n, (changeState s n).2 = true ↔ (s < n ∧ s < ENDED)) ∧
    (∀ s n, (changeState s n).2 = true → (changeState s n).1 = n) ∧
    (∀ s n, (changeState s n).2 = false → (changeState s n).1 = s) ∧
    (∀ s reqs, List.Chain (· < ·) s (stateTrace s reqs)) ∧
    (∀ s reqs, ENDED ≤ s → stateTrace s reqs = []) := by
  refine ⟨?_, ?_, ?_, fun s reqs => stateTrace_chain reqs s,
    fun s reqs => stateTrace_terminal reqs s⟩
  · intro s n
    by_cases hv : n > s ∧ s < ENDED
    · simp [changeState, hv]
    · simp [changeState, hv]
  · intro s n h
    by_cases hv : n > s ∧ s < ENDED
    · simp [changeState, hv]
    · simp [changeState, hv] at h
  · intro s n h
    by_cases hv : n > s ∧ s < ENDED
    · simp [changeState, hv] at h
    · simp [changeState, hv]

/-- Witness for C1 at concrete inputs. -/
theorem changeState_spec_witness :
    (changeState OPEN CLOSED).1 = CLOSED ∧
    stateTrace ENDED [DESTROYED] = [] :=
  ⟨changeState_spec.2.1 OPEN CLOSED (by decide),
   changeState_spec.2.2.2.2 ENDED [DESTROYED] (by decide)⟩

/-- Claim C2: over any run of `_changeState` calls, the `end` event is
emitted at most once; starting from a live state it is emitted exactly
when the run reaches ENDED (the emission happening at that transition);
a run that reaches DESTROYED emits no `end`; and the destroy path
(`destroy` → `_end(true)`) never emits `end`. -/
theorem end_emitted_at_most_once :
    (∀ s reqs, (runStates s reqs).2 ≤ 1) ∧
    (∀ s reqs, s < ENDED →
      ((runStates s reqs).2 = 1 ↔ (runStates s reqs).1 = ENDED)) ∧
    (∀ s reqs, s < ENDED →
      (runStates s reqs).1 = DESTROYED → (runStates s reqs).2 = 0) ∧
    (∀ (s : IterState) (cause cbErr : Option Nat),
      (destroy s cause cbErr).2.2 = false) := by
  refine ⟨?_, ?_, ?_, ?_⟩
  · intro s reqs
    rcases le_or_lt ENDED s with h | h
    · simp [(runStates_core reqs s).1 h]
    · rw [(runStates_core reqs s).2 h]
      split <;> omega
  · intro s reqs h
    rw [(runStates_core reqs s).2 h]
    split <;> simp_all
  · intro s reqs h hfin
    rw [(runStates_core reqs s).2 h, hfin]
    simp [DESTROYED, ENDED]
  · intro s cause cbErr
    simp only [destroy]
    split
    · rfl
    · simp [endIter, changeState, DESTROYED, ENDED]
      split <;> rfl

/-- Witness for C2 at concrete inputs. -/
theorem end_emitted_at_most_once_witness :
    ((runStates INIT [OPEN, CLOSED, ENDED]).2 = 1 ↔
      (runStates INIT [OPEN, CLOSED, ENDED]).1 = ENDED) ∧
    (runStates INIT [OPEN, DESTROYED]).2 = 0 :=
  ⟨end_emitted_at_most_once.2.1 INIT [OPEN, CLOSED, ENDED] (by decide),
   end_emitted_at_most_once.2.2.1 INIT [OPEN, DESTROYED] (by decide) (by decide)⟩

/-- Claim C5: for a `BufferedIterator` in a done state (ENDED or
DESTROYED, i.e. state ≥ ENDED), `_push(item)` is a silent no-op leaving
the whole state unchanged, and `read()` returns `null` with no state
change and no scheduled work. -/
theorem push_read_after_done {T : Type} (s : BufState T) (item : T)
    (h : ENDED ≤ s.state) :
    bufPush s item = s ∧ bufRead s = (none, s, BufSched.idle) := by
  constructor
  · simp [bufPush, h]
  · simp [bufRead, h]

/-- Witness for C5 on a concrete destroyed iterator. -/
theorem push_read_after_done_witness :
    bufPush (⟨DESTROYED, [], JSNum.num 4, false, 0, false⟩ : BufState Nat) 7 =
      (⟨DESTROYED, [], JSNum.num 4, false, 0, false⟩ : BufState Nat) ∧
    bufRead (⟨DESTROYED, [], JSNum.num 4, false, 0, false⟩ : BufState Nat) =
      (none, ⟨DESTROYED, [], JSNum.num 4, false, 0, false⟩, BufSched.idle) :=
  push_read_after_done _ 7 (by decide)

/-- Helper: on a live iterator, `_end` always succeeds — it enters
DESTROYED or ENDED, clears the readable flag and all
`readable`/`data`/`end` listeners, and emits `end` exactly on the
non-destroy path. -/
theorem endIter_live {s : IterState} (dest : Bool) (h : s.state < ENDED) :
    endIter s dest =
      (⟨if dest then DESTROYED else ENDED, false, 0, 0, 0⟩, !dest) := by
  cases dest with
  | false =>
    have hcs : changeState s.state ENDED = (ENDED, true) := by
      simp [changeState, h]
    simp [endIter, hcs]
  | true =>
    have h32 : s.state < DESTROYED := by
      have h16 : s.state < 16 := h
      simp only [DESTROYED]
      omega
    have hcs : changeState s.state DESTROYED = (DESTROYED, true) := by
      simp [changeState, h32, h]
    simp [endIter, hcs]
    decide

/-- Claim C9: on a not-yet-done iterator, `destroy()` with no cause whose
subclass `_destroy` passes an error `e` to its callback emits `error`
with `e` exactly once and then transitions to DESTROYED, emitting no
`end`. -/
theorem destroy_callback_error {E : Type} (s : IterState) (e : E)
    (h : s.state < ENDED) :
    (destroy s none (some e)).2.1 = [e] ∧
    (destroy s none (some e)).1.state = DESTROYED ∧
    (destroy s none (some e)).2.2 = false := by
  have hd : ¬ ENDED ≤ s.state := not_le.mpr h
  simp [destroy, hd, endIter_live true h]

/-- Witness for C9 on a concrete open iterator. -/
theorem destroy_callback_error_witness :
    (destroy (⟨OPEN, true, 1, 1, 1⟩ : IterState) none (some 42)).2.1 = [42] ∧
    (destroy (⟨OPEN, true, 1, 1, 1⟩ : IterState) none (some 42)).1.state =
      DESTROYED ∧
    (destroy (⟨OPEN, true, 1, 1, 1⟩ : IterState) none (some 42)).2.2 = false :=
  destroy_callback_error _ 42 (by decide)

/-- Claim C8: every entry into ENDED or DESTROYED leaves the iterator
with no listeners for `readable`, `data` and `end`: the `_end` path
removes them all, and the `EmptyIterator` constructor path (which calls
`_changeState(ENDED, true)` directly on a freshly constructed iterator)
enters ENDED with those listener sets already empty. -/
theorem terminal_releases_listeners :
    (∀ (s : IterState) (dest : Bool), s.state < ENDED →
      (endIter s dest).1.readableListeners = 0 ∧
      (endIter s dest).1.dataListeners = 0 ∧
      (endIter s dest).1.endListeners = 0 ∧
      ENDED ≤ (endIter s dest).1.state) ∧
    (emptyIteratorNew.readableListeners = 0 ∧
     emptyIteratorNew.dataListeners = 0 ∧
     emptyIteratorNew.endListeners = 0 ∧
     emptyIteratorNew.state = ENDED) := by
  constructor
  · intro s dest h
    cases dest <;> simp [endIter_live _ h, ENDED, DESTROYED]
  · exact (by decide)

/-- Witness for C8 on a concrete open iterator with listeners attached. -/
theorem terminal_releases_listeners_witness :
    (endIter (⟨OPEN, true, 3, 2, 1⟩ : IterState) false).1.readableListeners = 0 ∧
    (endIter (⟨OPEN, true, 3, 2, 1⟩ : IterState) false).1.dataListeners = 0 ∧
    (endIter (⟨OPEN, true, 3, 2, 1⟩ : IterState) false).1.endListeners = 0 ∧
    ENDED ≤ (endIter (⟨OPEN, true, 3, 2, 1⟩ : IterState) false).1.state :=
  terminal_releases_listeners.1 ⟨OPEN, true, 3, 2, 1⟩ false (by decide)

/-- Claim C10: the `maxBufferSize` setter keeps `Infinity` as is, turns
any other non-finite value into 4, truncates a finite value to an
integer clamped to a minimum of 1, and invokes `_fillBuffer` exactly
when the coerced value differs from the current one and the iterator is
in the OPEN state. -/
theorem maxBufferSize_coercion {T : Type} :
    (∀ s : BufState T,
      (setMaxBufferSize s JSNum.inf).1.maxBufferSize = JSNum.inf) ∧
    (∀ (s : BufState T) (v : JSNum), v.isFinite = false → v ≠ JSNum.inf →
      (setMaxBufferSize s v).1.maxBufferSize = JSNum.num 4) ∧
    (∀ (s : BufState T) (q : ℚ),
      (setMaxBufferSize s (JSNum.num q)).1.maxBufferSize =
        JSNum.num ((max (jsTrunc q) 1 : ℤ) : ℚ)) ∧
    (∀ (s : BufState T) (v : JSNum),
      (setMaxBufferSize s v).2 =
        (decide (coerceMaxBufferSize v ≠ s.maxBufferSize) &&
         decide (s.state = OPEN))) := by
  have hres : ∀ (s : BufState T) (v : JSNum),
      (setMaxBufferSize s v).1.maxBufferSize = coerceMaxBufferSize v := by
    intro s v
    simp only [setMaxBufferSize]
    split
    · rfl
    · next hne => exact not_ne_iff.mp hne
  refine ⟨?_, ?_, ?_, ?_⟩
  · intro s
    rw [hres]
    rfl
  · intro s v hfin hinf
    rw [hres]
    cases v with
    | num q => simp [JSNum.isFinite] at hfin
    | inf => exact absurd rfl hinf
    | negInf => rfl
    | nan => rfl
  · intro s q
    rw [hres]
    rfl
  · intro s v
    simp only [setMaxBufferSize]
    split
    · next hne =>
      simp [Ne.symm hne]
    · next hne =>
      have heq : s.maxBufferSize = coerceMaxBufferSize v := not_ne_iff.mp hne
      simp [heq]

/-- Witness for C10 on concrete values (NaN and a negative fraction). -/
theorem maxBufferSize_coercion_witness :
    (setMaxBufferSize (⟨OPEN, [], JSNum.num 4, false, 0, false⟩ : BufState Nat)
        JSNum.nan).1.maxBufferSize = JSNum.num 4 ∧
    (setMaxBufferSize (⟨OPEN, [], JSNum.num 4, false, 0, false⟩ : BufState Nat)
        (JSNum.num (-(7/2)))).1.maxBufferSize =
      JSNum.num ((max (jsTrunc (-(7/2))) 1 : ℤ) : ℚ) :=
  ⟨maxBufferSize_coercion.2.1 _ JSNum.nan (by decide) (by decide),
   maxBufferSize_coercion.2.2.1 _ (-(7/2))⟩

/-- Helper: removing a name from an association list makes its lookup
fail. -/
theorem assocGet_remove_self {N V : Type} [DecidableEq N]
    (l : List (N × V)) (n : N) : assocGet (assocRemove l n) n = none := by
  induction l with
  | nil => rfl
  | cons kv rest ih =>
    obtain ⟨k, w⟩ := kv
    by_cases hk : k = n
    · simp [assocRemove, hk, ih]
    · simp [assocRemove, assocGet, hk, ih]

/-- Helper: removing a name leaves lookups of other names unchanged. -/
theorem assocGet_remove_ne {N V : Type} [DecidableEq N]
    (l : List (N × V)) (n n' : N) (h : n' ≠ n) :
    assocGet (assocRemove l n) n' = assocGet l n' := by
  induction l with
  | nil => rfl
  | cons kv rest ih =>
    obtain ⟨k, w⟩ := kv
    by_cases hk : k = n
    · subst hk
      simp [assocRemove, assocGet, Ne.symm h, ih]
    · simp [assocRemove, assocGet, hk, ih]

/-- Helper: storing a value under a name makes its lookup return it. -/
theorem assocGet_set_self {N V : Type} [DecidableEq N]
    (l : List (N × V)) (n : N) (v : V) :
    assocGet (assocSet l n v) n = some v := by
  induction l with
  | nil => simp [assocSet, assocGet]
  | cons kv rest ih =>
    obtain ⟨k, w⟩ := kv
    by_cases hk : k = n
    · simp [assocSet, assocGet, hk]
    · simp [assocSet, assocGet, hk, ih]

/-- Claim C6: when `setProperty(name, value)` runs while `k` callbacks
are pending for `name`, it detaches all of them and schedules a single
deferred task firing each of the `k` callbacks exactly once with the
value, in registration order (`getProperty` appends new callbacks at the
end, so the stored list is in registration order); pending callbacks for
other names are untouched. -/
theorem setProperty_fires_pending {N V C : Type} [DecidableEq N]
    (s : PropState N V C) (name : N) (v : V) (l : List C)
    (h : assocGet s.cbs name = some l) :
    (setProperty s name v).2 = some (l, v) ∧
    taskFirings (setProperty s name v).2 = l.map (fun cb => (cb, v)) ∧
    assocGet (setProperty s name v).1.cbs name = none ∧
    (∀ n', n' ≠ name →
      assocGet (setProperty s name v).1.cbs n' = assocGet s.cbs n') ∧
    (∀ cb : C, assocGet s.props name = none →
      assocGet (getPropertyCb s name cb).1.cbs name = some (l ++ [cb])) := by
  refine ⟨?_, ?_, ?_, ?_, ?_⟩
  · simp [setProperty, h]
  · simp [setProperty, h, taskFirings]
  · simp [setProperty, h, assocGet_remove_self]
  · intro n' hne
    simp [setProperty, h, assocGet_remove_ne _ _ _ hne]
  · intro cb hp
    simp [getPropertyCb, hp, h, assocGet_set_self]

/-- Witness for C6 with two callbacks pending for name 0 and one for
name 1. -/
theorem setProperty_fires_pending_witness :
    (setProperty
      (⟨[], [(0, [100, 101]), (1, [102])]⟩ : PropState Nat Nat Nat) 0 42).2 =
        some ([100, 101], 42) ∧
    assocGet (setProperty
      (⟨[], [(0, [100, 101]), (1, [102])]⟩ : PropState Nat Nat Nat) 0 42).1.cbs 0 =
        none :=
  ⟨(setProperty_fires_pending _ 0 42 [100, 101] (by decide)).1,
   (setProperty_fires_pending _ 0 42 [100, 101] (by decide)).2.2.1⟩

/-- Claim C4: the pipeline
`fromArray([1,2,3]).transform({offset: 1, limit: 1, prepend: [9],
append: [8]})` emits exactly `[9, 2, 8]`: the prepended item, then the
single source item left after skipping one and limiting to one, then the
appended item. -/
theorem transform_concrete_scenario :
    simpleTransformEmit (fun _ => true) none false 1 (some 1)
      (some [9]) (some [8]) [1, 2, 3] = [9, 2, 8] := by
  decide

/-- Helper: the simple-transform loop with only an offset configured
drops that many items. -/
theorem simpleLoop_drop {T : Type} (xs : List T) : ∀ m : Nat,
    simpleLoop (fun _ => true) none false m none xs = xs.drop m := by
  induction xs with
  | nil => intro m; simp [simpleLoop]
  | cons x rest ih =>
    intro m
    match m with
    | 0 => simp [simpleLoop, ih]
    | Nat.succ k => simp [simpleLoop, ih k]

/-- Helper: the simple-transform loop with only a positive limit
configured takes that many items. -/
theorem simpleLoop_take {T : Type} (xs : List T) : ∀ n : Nat, n ≠ 0 →
    simpleLoop (fun _ => true) none false 0 (some n) xs = xs.take n := by
  induction xs with
  | nil => intro n _; simp [simpleLoop]
  | cons x rest ih =>
    intro n hn
    obtain ⟨k, rfl⟩ := Nat.exists_eq_succ_of_ne_zero hn
    by_cases hk : k = 0
    · subst hk
      simp [simpleLoop]
    · simp [simpleLoop, hk, ih k hk]

/-- Helper: offset and positive limit together drop then take. -/
theorem simpleLoop_drop_take {T : Type} (xs : List T) : ∀ (m n : Nat), n ≠ 0 →
    simpleLoop (fun _ => true) none false m (some n) xs =
      (xs.drop m).take n := by
  induction xs with
  | nil => intro m n _; simp [simpleLoop]
  | cons x rest ih =>
    intro m n hn
    match m with
    | 0 =>
      obtain ⟨k, rfl⟩ := Nat.exists_eq_succ_of_ne_zero hn
      by_cases hk : k = 0
      · subst hk
        simp [simpleLoop]
      · simp [simpleLoop, hk, simpleLoop_take rest k hk]
    | Nat.succ j => simp [simpleLoop, ih j n hn]

/-- Helper: `take(n)` emits the first `n` items of its source. -/
theorem takeEmit_eq (n : Nat) (xs : List ℤ) : takeEmit n xs = xs.take n := by
  by_cases hn : n = 0
  · subst hn
    simp [takeEmit, readAndTransformSimple]
  · simp [takeEmit, readAndTransformSimple, hn, simpleLoop_take xs n hn]

/-- Helper: `skip(m)` emits all but the first `m` items of its source. -/
theorem skipEmit_eq (m : Nat) (xs : List ℤ) : skipEmit m xs = xs.drop m := by
  simp [skipEmit, readAndTransformSimple, simpleLoop_drop]

/-- Claim C7: for all non-negative integers `m` and `n`,
`skip(m).take(n)` emits the same ordered sequence as
`range(m, m + n - 1)`, both over an arbitrary source and over any
integer range (default step 1). -/
theorem skip_take_eq_range :
    (∀ (m n : Nat) (xs : List ℤ),
      takeEmit n (skipEmit m xs) = rangeEmit (m : ℤ) ((m : ℤ) + n - 1) xs) ∧
    (∀ (m n : Nat) (start last : ℤ),
      takeEmit n (skipEmit m (intRangeList start last)) =
        rangeEmit (m : ℤ) ((m : ℤ) + n - 1) (intRangeList start last)) := by
  have key : ∀ (m n : Nat) (xs : List ℤ),
      takeEmit n (skipEmit m xs) = rangeEmit (m : ℤ) ((m : ℤ) + n - 1) xs := by
    intro m n xs
    have h1 : intCoerceNat (m : ℤ) = m := by
      unfold intCoerceNat
      omega
    have h2 : intCoerceNat (rangeLimit (m : ℤ) ((m : ℤ) + n - 1)) = n := by
      unfold intCoerceNat rangeLimit
      omega
    rw [rangeEmit, h1, h2]
    by_cases hn : n = 0
    · subst hn
      simp [takeEmit_eq, readAndTransformSimple]
    · rw [readAndTransformSimple]
      simp only [hn, if_neg, Option.some.injEq]
      rw [simpleLoop_drop_take xs m n hn, takeEmit_eq, skipEmit_eq]
      simp [hn]
  exact ⟨key, fun m n start last => key m n _⟩

/-- Helper: behaviour of `HistoryReader.readAt` under the history
invariant — the history plus the remaining source always reassembles the
full source sequence `xs`, the history only grows, a `null` result
changes nothing, and a returned item is exactly `xs` at that position
(which is then inside the new history). -/
theorem readAt_spec {T : Type} (xs : List T) (hr : HistoryReader T) (pos : Nat)
    (hinv : hr.history ++ hr.src = xs) (hpos : pos ≤ hr.history.length) :
    (readAt hr pos).2.history ++ (readAt hr pos).2.src = xs ∧
    hr.history.length ≤ (readAt hr pos).2.history.length ∧
    ((readAt hr pos).1 = none → (readAt hr pos).2 = hr) ∧
    (∀ x, (readAt hr pos).1 = some x →
      xs.get? pos = some x ∧ pos < (readAt hr pos).2.history.length) := by
  by_cases h : pos < hr.history.length
  · simp only [readAt, if_pos h]
    refine ⟨hinv, le_rfl, ?_, ?_⟩
    · intro hnone
      trivial
    · intro x hx
      refine ⟨?_, h⟩
      rw [← hinv, List.get?_append h]
      exact hx
  · have hlen : pos = hr.history.length := le_antisymm hpos (not_lt.mp h)
    cases hsrc : hr.src with
    | nil =>
      simp only [readAt, if_neg h, hsrc]
      refine ⟨by rw [← hsrc]; exact hinv, le_rfl, fun _ => trivial, ?_⟩
      intro x hx
      exact absurd hx (by simp)
    | cons y rest =>
      simp only [readAt, if_neg h, hsrc]
      have hset : jsArraySet hr.history pos y = hr.history ++ [y] := by
        simp [jsArraySet, h]
      refine ⟨?_, ?_, ?_, ?_⟩
      · simp only [hset, List.append_assoc, List.singleton_append]
        rw [← hsrc]
        exact hinv
      · simp [hset]
      · intro hnone
        exact absurd hnone (by simp)
      · intro x hx
        simp only [Option.some.injEq] at hx
        subst hx
        constructor
        · rw [← hinv, hsrc, List.get?_append_right (le_of_eq hlen.symm), hlen]
          simp
        · rw [hset]
          simp only [List.length_append, List.length_singleton]
          omega

/-- Helper: every step of the clone system preserves the system
invariant. -/
theorem stepSys_inv {T : Type} (xs : List T) (s : CloneSys T)
    (a : CloneAction) (h : SysInv xs s) : SysInv xs (stepSys s a) := by
  obtain ⟨h1, h2⟩ := h
  cases a with
  | register =>
    refine ⟨h1, ?_⟩
    intro c hc
    simp only [stepSys, List.mem_append, List.mem_singleton] at hc
    rcases hc with hc | hc
    · exact h2 c hc
    · subst hc
      exact ⟨Nat.zero_le _, by simp⟩
  | read i =>
    cases hgi : s.clones.get? i with
    | none =>
      simp only [stepSys, hgi]
      exact ⟨h1, h2⟩
    | some po =>
      obtain ⟨pos, obs⟩ := po
      have hmem : (pos, obs) ∈ s.clones := List.get?_mem hgi
      have hc := h2 _ hmem
      have hra := readAt_spec xs s.hr pos h1 hc.1
      cases hitem : (readAt s.hr pos).1 with
      | none =>
        simp only [stepSys, hgi, hitem]
        rw [hra.2.2.1 hitem]
        exact ⟨h1, h2⟩
      | some x =>
        have hx := hra.2.2.2 x hitem
        simp only [stepSys, hgi, hitem]
        refine ⟨hra.1, ?_⟩
        intro c hcmem
        rcases List.mem_or_eq_of_mem_set hcmem with hold | hnew
        · have hco := h2 c hold
          exact ⟨le_trans hco.1 hra.2.1, hco.2⟩
        · subst hnew
          refine ⟨hx.2, ?_⟩
          have hx1 : xs[pos]? = some x := by
            rw [← List.get?_eq_getElem?]
            exact hx.1
          have htake : xs.take (pos + 1) = xs.take pos ++ [x] := by
            simp [List.take_succ, hx1]
          have hc2 : obs = xs.take pos := hc.2
          show obs ++ [x] = xs.take (pos + 1)
          rw [htake, hc2]

/-- Helper: the system invariant is preserved by whole schedules. -/
theorem runSys_inv {T : Type} (xs : List T) (acts : List CloneAction) :
    ∀ s : CloneSys T, SysInv xs s → SysInv xs (runSys s acts) := by
  induction acts with
  | nil => intro s h; exact h
  | cons a rest ih =>
    intro s h
    exact ih _ (stepSys_inv xs s a h)

/-- Claim C3: for any source and any interleaved schedule of reads over
any number of clones registered at any time, the observed item
sequence of every clone is the prefix of the source sequence whose
length is the read position of that clone — so any clone read to
completion observes exactly the full
source sequence, any two clones read to completion observe the same
ordered sequence, and a clone registering after the source has been
partially read still starts at position 0 of the shared history. -/
theorem clones_same_sequence {T : Type} (xs : List T)
    (acts : List CloneAction) :
    (∀ c ∈ (runSys (initSys xs) acts).clones, c.2 = xs.take c.1) ∧
    (∀ c ∈ (runSys (initSys xs) acts).clones,
      c.1 = xs.length → c.2 = xs) ∧
    (∀ c ∈ (runSys (initSys xs) acts).clones,
     ∀ c' ∈ (runSys (initSys xs) acts).clones,
      c.1 = xs.length → c'.1 = xs.length → c.2 = c'.2) ∧
    (∀ s : CloneSys T, (stepSys s CloneAction.register).clones =
      s.clones ++ [(0, [])]) := by
  have hinit : SysInv xs (initSys xs) := by
    refine ⟨by simp [initSys], ?_⟩
    intro c hc
    simp [initSys] at hc
  have hinv := runSys_inv xs acts _ hinit
  refine ⟨fun c hc => (hinv.2 c hc).2, ?_, ?_, fun s => rfl⟩
  · intro c hc hlen
    rw [(hinv.2 c hc).2, hlen, List.take_length]
  · intro c hc c' hc' hlen hlen'
    rw [(hinv.2 c hc).2, (hinv.2 c' hc').2, hlen, hlen']

/-- Witness for C3: two clones interleaved over the source
`[10, 20, 30]`, the second registering after the first has already read
an item; both complete with the full sequence. -/
theorem clones_same_sequence_witness :
    ((3, [10, 20, 30]) : Nat × List Nat).2 = [10, 20, 30] ∧
    ((3, [10, 20, 30]) : Nat × List Nat).2 =
      ((3, [10, 20, 30]) : Nat × List Nat).2 :=
  ⟨(clones_same_sequence [10, 20, 30]
      [CloneAction.register, CloneAction.read 0, CloneAction.register,
       CloneAction.read 1, CloneAction.read 1, CloneAction.read 1,
       CloneAction.read 0, CloneAction.read 0, CloneAction.read 0]).2.1
    (3, [10, 20, 30]) (by decide) (by decide),
   (clones_same_sequence [10, 20, 30]
      [CloneAction.register, CloneAction.read 0, CloneAction.register,
       CloneAction.read 1, CloneAction.read 1, CloneAction.read 1,
       CloneAction.read 0, CloneAction.read 0, CloneAction.read 0]).2.2.1
    (3, [10, 20, 30]) (by decide)
    (3, [10, 20, 30]) (by decide) (by decide) (by decide)⟩

end AIter
